import Mathlib

/-!
Verification of the reactNodeView plugin
(src/plugins/reactNodeViewPlugin.ts).

The plugin keeps a registry map from document positions to string keys.
Its `init` assigns a key to every node reported by `doc.descendants`,
its `apply` reconciles the map through a transaction using the inverted
position mapping, and `findNearestRegistryKey` walks the ancestors of a
position looking for the nearest node type whose registered node view
carries the REACT_NODE_VIEW tag.

Modelling choices, all taken from the source:
* the ProseMirror document is a tree of text leaves and element nodes;
  node sizes and positions follow the host model (a text leaf of length
  n occupies n positions, an element occupies its content plus two
  bracket tokens);
* `Math.random` based key generation is modelled by an oracle
  `gen : Nat -> String` consumed at an explicit call counter, so one
  call of `createRegistryKey` reads `gen c` and advances the counter;
* the JavaScript `Map` is an insertion ordered association list and the
  JavaScript `Set` a list queried by membership;
* a transaction is its `docChanged` flag together with the function
  `tr.mapping.invert().map`, the only two pieces the plugin reads.
-/

/-- Document tree node, mirroring the host ProseMirror node model: a text
leaf (holding `len + 1` characters, since empty text nodes are not
representable in the host model) or an element node with a type name and
children. -/
inductive Node where
  | text (len : Nat)
  | node (typeName : String) (children : List Node)

mutual

/-- Size of a node in the position scheme of the host model: a text leaf
covers its character count, an element covers its content plus the two
bracketing tokens. -/
def Node.size : Node → Nat
  | .text len => len + 1
  | .node _ cs => 2 + sizeList cs

/-- Total size of a list of sibling nodes. -/
def sizeList : List Node → Nat
  | [] => 0
  | c :: cs => Node.size c + sizeList cs

end

/-- The `node.isText` predicate of the host model. -/
def Node.isText : Node → Bool
  | .text _ => true
  | .node _ _ => false

mutual

/-- Descendants of a single node: the `(node, pos)` pairs that
`node.descendants` reports inside this node, with `base` the absolute
position where its content starts. -/
def descNode : Node → Nat → List (Node × Nat)
  | .text _, _ => []
  | .node _ cs, base => descList cs base

/-- Descendants of a sibling list starting at absolute position `base`:
each child is reported at its own start position, then its descendants,
then the following siblings. -/
def descList : List Node → Nat → List (Node × Nat)
  | [], _ => []
  | c :: cs, base => (c, base) :: (descNode c (base + 1) ++ descList cs (base + Node.size c))

end

/-- The full `doc.descendants` traversal of a document, in document
order, including text leaves; the root itself is not visited. -/
def descendantsList (doc : Node) : List (Node × Nat) := descNode doc 0

/-- JavaScript `Map.set` on an insertion ordered association list:
overwrite in place when the key is present, append otherwise. -/
def mapSet (m : List (Nat × String)) (k : Nat) (v : String) : List (Nat × String) :=
  if k ∈ m.map Prod.fst then m.map (fun e => if e.1 = k then (k, v) else e) else m ++ [(k, v)]

/-- JavaScript `Set.add` on a list queried by membership. -/
def setAdd (s : List String) (k : String) : List String :=
  if k ∈ s then s else s ++ [k]

/-- The `createRegistryKey` generator: one call reads the random oracle
`gen` at the current call counter and advances the counter. -/
def createRegistryKey (gen : Nat → String) (c : Nat) : String × Nat :=
  (gen c, c + 1)

/-- The loop body of the plugin `init` callback: every visited node gets
a fresh key at its position (the source init has no text filter). -/
def initFold (gen : Nat → String) :
    List (Node × Nat) → Nat → List (Nat × String) → List (Nat × String) × Nat
  | [], c, next => (next, c)
  | (_, pos) :: rest, c, next =>
    let kc := createRegistryKey gen c
    initFold gen rest kc.2 (mapSet next pos kc.1)

/-- The plugin `state.init`: traverse `state.doc.descendants` and assign
a fresh key to each visited node, starting from an empty map. -/
def initPlugin (gen : Nat → String) (c : Nat) (doc : Node) : List (Nat × String) × Nat :=
  initFold gen (descendantsList doc) c []

/-- The two pieces of a transaction the plugin reads: the `docChanged`
flag and the inverted position mapping `tr.mapping.invert().map`. -/
structure Tr where
  docChanged : Bool
  invMap : Nat → Nat

/-- The loop body of the plugin `apply` callback: skip text nodes; for a
structural node at `pos`, look up the key at the invert mapped previous
position (minting a fresh key when absent), replace it by a fresh key
when it was already used in this pass, then record it in the new map and
in the used key set. -/
def applyFold (gen : Nat → String) (im : Nat → Nat) (value : List (Nat × String)) :
    List (Node × Nat) → Nat → List (Nat × String) → List String → List (Nat × String) × Nat
  | [], c, next, _ => (next, c)
  | (n, pos) :: rest, c, next, nextKeys =>
    if n.isText then applyFold gen im value rest c next nextKeys
    else
      let prevPos := im pos
      let pk :=
        match List.lookup prevPos value with
        | some k => (k, c)
        | none => createRegistryKey gen c
      let kk := if pk.1 ∈ nextKeys then createRegistryKey gen pk.2 else pk
      applyFold gen im value rest kk.2 (mapSet next pos kk.1) (setAdd nextKeys kk.1)

/-- The plugin `state.apply`: return the previous map unchanged when the
transaction did not change the document, otherwise rebuild the map from
scratch over the new document. -/
def applyPlugin (gen : Nat → String) (c : Nat) (tr : Tr) (value : List (Nat × String))
    (newDoc : Node) : List (Nat × String) × Nat :=
  if tr.docChanged then applyFold gen tr.invMap value (descendantsList newDoc) c [] []
  else (value, c)

/-- Modelled from the spec: the RootSentinelKey constant
(PORTAL_REGISTRY_ROOT_KEY from contexts/PortalRegistryContext.js, which
is not under src/) is a well known constant key; its concrete value is
irrelevant to the plugin logic. -/
def PORTAL_REGISTRY_ROOT_KEY : String := "__ROOT__"

mutual

/-- Ancestor path computation inside a sibling list whose region starts
at absolute position `base`, with `off` the offset of the resolved
position from that region start: descend into the child that strictly
contains the offset, recording element ancestors with their start
positions; stop at a boundary or inside a text leaf. This mirrors the
host `doc.resolve` path construction used by `$pos.node` and
`$pos.before`. -/
def ancList : List Node → Nat → Nat → List (String × Nat)
  | [], _, _ => []
  | c :: rest, base, off =>
    if off = 0 then []
    else if off < Node.size c then ancNode c base off
    else ancList rest (base + Node.size c) (off - Node.size c)

/-- Ancestor path contribution of one child that strictly contains the
resolved position: a text leaf contributes nothing (the path stops at
its parent), an element is itself an ancestor and the walk continues in
its content. -/
def ancNode : Node → Nat → Nat → List (String × Nat)
  | .text _, _, _ => []
  | .node name cs, base, off => (name, base) :: ancList cs (base + 1) (off - 1)

end

/-- Ancestors of position `p` in a document, outermost (depth 1) first,
as pairs of the ancestor type name and its `$pos.before` position; the
root (depth 0) is never part of the path. -/
def docAncestors : Node → Nat → List (String × Nat)
  | .text _, _ => []
  | .node _ cs, p => ancList cs 0 p

/-- The loop of `findNearestRegistryKey` over the ancestor list ordered
deepest first: skip ancestors whose node view is not tagged as a React
node view, look the tagged ones up in the registry map, skip falsy
results (absent, or the empty string under JavaScript truthiness), and
return the first truthy key. -/
def walkAncestors (m : List (Nat × String)) (tagged : String → Bool) :
    List (String × Nat) → String
  | [] => PORTAL_REGISTRY_ROOT_KEY
  | (name, bpos) :: rest =>
    if tagged name then
      match List.lookup bpos m with
      | some k => if k = "" then walkAncestors m tagged rest else k
      | none => walkAncestors m tagged rest
    else walkAncestors m tagged rest

/-- The `findNearestRegistryKey` function: return the root sentinel when
the plugin state is absent, otherwise walk the ancestors of `pos` from
the deepest (depth `$pos.depth`) up to depth 1. -/
def findNearestRegistryKey (pluginState : Option (List (Nat × String)))
    (tagged : String → Bool) (doc : Node) (pos : Nat) : String :=
  match pluginState with
  | none => PORTAL_REGISTRY_ROOT_KEY
  | some m => walkAncestors m tagged (docAncestors doc pos).reverse

/-- Concrete key oracle used by witnesses: the key for call `i` is a run
of `i + 1` letters. -/
def genA : Nat → String := fun i => { data := List.replicate (i + 1) 'a' }

example : Node.size (.text 0) = 1 := rfl

example : descendantsList (.node "doc" [.node "p" [.text 0]]) =
    [(.node "p" [.text 0], 0), (.text 0, 1)] := rfl

example : docAncestors (.node "doc" [.node "note" [.node "para" [.node "item" [.text 0]]]]) 4 =
    [("note", 0), ("para", 1), ("item", 2)] := rfl

theorem lookup_append_right (p : Nat) (xs ys : List (Nat × String))
    (h : p ∉ xs.map Prod.fst) : List.lookup p (xs ++ ys) = List.lookup p ys := by
  induction xs with
  | nil => rfl
  | cons e xs ih =>
    simp only [List.map_cons, List.mem_cons, not_or] at h
    obtain ⟨h1, h2⟩ := h
    obtain ⟨k, v⟩ := e
    have hk : (p == k) = false := by
      simp only [Prod.fst] at h1
      exact beq_eq_false_iff_ne.mpr h1
    simp [List.lookup, hk, ih h2]

theorem lookup_some_mem {p : Nat} {m : List (Nat × String)} {k : String}
    (h : List.lookup p m = some k) : (p, k) ∈ m := by
  induction m with
  | nil => simp [List.lookup] at h
  | cons e m ih =>
    obtain ⟨q, v⟩ := e
    by_cases hq : p = q
    · subst hq
      simp [List.lookup] at h
      subst h
      exact List.mem_cons_self _ _
    · have hk : (p == q) = false := beq_eq_false_iff_ne.mpr hq
      simp [List.lookup, hk] at h
      exact List.mem_cons_of_mem _ (ih h)

theorem lookup_some_val_mem {p : Nat} {m : List (Nat × String)} {k : String}
    (h : List.lookup p m = some k) : k ∈ m.map Prod.snd := by
  exact List.mem_map_of_mem Prod.snd (lookup_some_mem h)

theorem mem_fst_lookup {p : Nat} {m : List (Nat × String)}
    (h : p ∈ m.map Prod.fst) : ∃ k, List.lookup p m = some k := by
  induction m with
  | nil => simp at h
  | cons e m ih =>
    obtain ⟨q, v⟩ := e
    by_cases hq : p = q
    · subst hq
      exact ⟨v, by simp [List.lookup]⟩
    · have hk : (p == q) = false := beq_eq_false_iff_ne.mpr hq
      simp only [List.map_cons, List.mem_cons] at h
      rcases h with h | h
      · exact absurd h hq
      · obtain ⟨k, hkk⟩ := ih h
        exact ⟨k, by simp [List.lookup, hk, hkk]⟩

theorem mapSet_append {m : List (Nat × String)} {k : Nat} {v : String}
    (h : k ∉ m.map Prod.fst) : mapSet m k v = m ++ [(k, v)] := by
  simp [mapSet, h]

theorem setAdd_mem {s : List String} {k a : String} :
    a ∈ setAdd s k ↔ a ∈ s ∨ a = k := by
  unfold setAdd
  by_cases h : k ∈ s
  · simp only [if_pos h]
    constructor
    · exact Or.inl
    · rintro (ha | rfl)
      · exact ha
      · exact h
  · simp [if_neg h]

theorem nodup_values_eq {m : List (Nat × String)} {p1 p2 : Nat} {k : String}
    (hnd : (m.map Prod.snd).Nodup) (h1 : (p1, k) ∈ m) (h2 : (p2, k) ∈ m) : p1 = p2 := by
  induction m with
  | nil => simp at h1
  | cons e m ih =>
    simp only [List.map_cons, List.nodup_cons] at hnd
    simp only [List.mem_cons] at h1 h2
    rcases h1 with h1 | h1 <;> rcases h2 with h2 | h2
    · exact congrArg Prod.fst (h1.trans h2.symm)
    · exfalso
      apply hnd.1
      have : k = e.2 := by rw [← h1]
      exact this ▸ List.mem_map_of_mem Prod.snd h2
    · exfalso
      apply hnd.1
      have : k = e.2 := by rw [← h2]
      exact this ▸ List.mem_map_of_mem Prod.snd h1
    · exact ih hnd.2 h1 h2

theorem size_pos (c : Node) : 1 ≤ Node.size c := by
  cases c with
  | text len => simp [Node.size]
  | node nm cs => simp only [Node.size]; omega

mutual

theorem descNode_bounds : ∀ (c : Node) (base : Nat), ∀ e ∈ descNode c base,
    base ≤ e.2 ∧ e.2 + 1 < base + Node.size c
  | .text _, _ => by intro e he; simp [descNode] at he
  | .node nm cs, base => by
    intro e he
    simp only [descNode] at he
    have h := descList_bounds cs base e he
    simp only [Node.size]
    omega

theorem descList_bounds : ∀ (cs : List Node) (base : Nat), ∀ e ∈ descList cs base,
    base ≤ e.2 ∧ e.2 < base + sizeList cs
  | [], _ => by intro e he; simp [descList] at he
  | c :: cs, base => by
    intro e he
    simp only [descList, List.mem_cons, List.mem_append] at he
    have hs := size_pos c
    rcases he with rfl | he | he
    · simp only [sizeList]
      omega
    · have h := descNode_bounds c (base + 1) e he
      simp only [sizeList]
      omega
    · have h := descList_bounds cs (base + Node.size c) e he
      simp only [sizeList]
      omega

end

mutual

theorem descNode_sorted : ∀ (c : Node) (base : Nat),
    ((descNode c base).map (fun e => e.2)).Pairwise (· < ·)
  | .text _, _ => by simp [descNode]
  | .node nm cs, base => by simpa [descNode] using descList_sorted cs base

theorem descList_sorted : ∀ (cs : List Node) (base : Nat),
    ((descList cs base).map (fun e => e.2)).Pairwise (· < ·)
  | [], _ => by simp [descList]
  | c :: cs, base => by
    have h1 := descNode_sorted c (base + 1)
    have h2 := descList_sorted cs (base + Node.size c)
    have b1 := descNode_bounds c (base + 1)
    have b2 := descList_bounds cs (base + Node.size c)
    have hs := size_pos c
    simp only [descList, List.map_cons, List.map_append]
    refine List.Pairwise.cons ?_ ?_
    · intro b hb
      simp only [List.mem_append, List.mem_map] at hb
      rcases hb with ⟨e, he, rfl⟩ | ⟨e, he, rfl⟩
      · have := b1 e he
        omega
      · have := b2 e he
        omega
    · rw [List.pairwise_append]
      refine ⟨h1, h2, ?_⟩
      intro a ha b hb
      simp only [List.mem_map] at ha hb
      obtain ⟨e1, he1, rfl⟩ := ha
      obtain ⟨e2, he2, rfl⟩ := hb
      have q1 := b1 e1 he1
      have q2 := b2 e2 he2
      omega

end

theorem descendants_sorted (doc : Node) :
    ((descendantsList doc).map (fun e => e.2)).Pairwise (· < ·) :=
  descNode_sorted doc 0

theorem descendants_pos_nodup (doc : Node) :
    ((descendantsList doc).map (fun e => e.2)).Nodup :=
  (descendants_sorted doc).imp (fun h => Nat.ne_of_lt h)

theorem initFold_spec (gen : Nat → String) :
    ∀ (l : List (Node × Nat)) (c : Nat) (next : List (Nat × String)),
    (∀ e ∈ l, e.2 ∉ next.map Prod.fst) → ((l.map (fun e => e.2)).Nodup) →
    (initFold gen l c next).1.map Prod.fst = next.map Prod.fst ++ l.map (fun e => e.2) ∧
    (initFold gen l c next).1.map Prod.snd =
      next.map Prod.snd ++ (List.range l.length).map (fun i => gen (c + i)) ∧
    (initFold gen l c next).2 = c + l.length := by
  intro l
  induction l with
  | nil => intro c next _ _; simp [initFold]
  | cons e rest ih =>
    intro c next hfr hnd
    obtain ⟨n, p⟩ := e
    have hp : p ∉ next.map Prod.fst := hfr (n, p) (List.mem_cons_self _ _)
    simp only [List.map_cons, List.nodup_cons, List.mem_map] at hnd
    have hset : mapSet next p (gen c) = next ++ [(p, gen c)] := mapSet_append hp
    have hfr2 : ∀ e ∈ rest, e.2 ∉ (next ++ [(p, gen c)]).map Prod.fst := by
      intro e he
      simp only [List.map_append, List.mem_append, List.map_cons, List.map_nil,
        List.mem_singleton, not_or]
      refine ⟨hfr e (List.mem_cons_of_mem _ he), ?_⟩
      intro hep
      exact hnd.1 ⟨e, he, hep⟩
    obtain ⟨ih1, ih2, ih3⟩ := ih (c + 1) (next ++ [(p, gen c)]) hfr2 hnd.2
    simp only [initFold, createRegistryKey, hset]
    refine ⟨?_, ?_, ?_⟩
    · rw [ih1]
      simp
    · rw [ih2]
      simp only [List.length_cons, List.range_succ_eq_map, List.map_cons, List.map_append,
        List.map_map]
      simp only [Nat.add_zero, List.append_assoc, List.cons_append, List.nil_append,
        List.singleton_append]
      congr 2
      apply List.map_congr_left
      intro i _
      simp only [Function.comp]
      exact congrArg gen (by omega)
    · rw [ih3]
      simp only [List.length_cons]
      omega

theorem applyFold_text (gen : Nat → String) (im : Nat → Nat) (value : List (Nat × String))
    (n : Node) (p : Nat) (rest : List (Node × Nat)) (c : Nat) (next : List (Nat × String))
    (ks : List String) (ht : n.isText = true) :
    applyFold gen im value ((n, p) :: rest) c next ks = applyFold gen im value rest c next ks := by
  simp [applyFold, ht]

theorem applyFold_step (gen : Nat → String) (im : Nat → Nat) (value : List (Nat × String))
    (n : Node) (p : Nat) (rest : List (Node × Nat)) (c : Nat) (next : List (Nat × String))
    (ks : List String) (ht : n.isText = false) :
    ∃ k' c', applyFold gen im value ((n, p) :: rest) c next ks
        = applyFold gen im value rest c' (mapSet next p k') (setAdd ks k') ∧
      ((∃ kp, List.lookup (im p) value = some kp ∧
          ((kp ∉ ks ∧ k' = kp ∧ c' = c) ∨ (kp ∈ ks ∧ k' = gen c ∧ c' = c + 1))) ∨
       (List.lookup (im p) value = none ∧
          ((gen c ∉ ks ∧ k' = gen c ∧ c' = c + 1) ∨
           (gen c ∈ ks ∧ k' = gen (c + 1) ∧ c' = c + 2)))) := by
  cases hlk : List.lookup (im p) value with
  | some kp =>
    by_cases hm : kp ∈ ks
    · exact ⟨gen c, c + 1, by simp [applyFold, ht, hlk, createRegistryKey, hm],
        Or.inl ⟨kp, rfl, Or.inr ⟨hm, rfl, rfl⟩⟩⟩
    · exact ⟨kp, c, by simp [applyFold, ht, hlk, createRegistryKey, hm],
        Or.inl ⟨kp, rfl, Or.inl ⟨hm, rfl, rfl⟩⟩⟩
  | none =>
    by_cases hm : gen c ∈ ks
    · exact ⟨gen (c + 1), c + 2, by simp [applyFold, ht, hlk, createRegistryKey, hm],
        Or.inr ⟨rfl, Or.inr ⟨hm, rfl, rfl⟩⟩⟩
    · exact ⟨gen c, c + 1, by simp [applyFold, ht, hlk, createRegistryKey, hm],
        Or.inr ⟨rfl, Or.inl ⟨hm, rfl, rfl⟩⟩⟩

theorem applyFold_entries (gen : Nat → String) (im : Nat → Nat) (value : List (Nat × String)) :
    ∀ (l : List (Node × Nat)) (c : Nat) (next : List (Nat × String)) (ks : List String),
    (∀ e ∈ l, e.2 ∉ next.map Prod.fst) → ((l.map (fun e => e.2)).Nodup) →
    ∃ t, (applyFold gen im value l c next ks).1 = next ++ t ∧
      t.map Prod.fst = (l.filter (fun e => !e.1.isText)).map (fun e => e.2) := by
  intro l
  induction l with
  | nil => intro c next ks _ _; exact ⟨[], by simp [applyFold], by simp⟩
  | cons e rest ih =>
    intro c next ks hfr hnd
    obtain ⟨n, p⟩ := e
    have hp : p ∉ next.map Prod.fst := hfr (n, p) (List.mem_cons_self _ _)
    simp only [List.map_cons, List.nodup_cons, List.mem_map] at hnd
    have hfr2 : ∀ (k' : String), ∀ e ∈ rest, e.2 ∉ (next ++ [(p, k')]).map Prod.fst := by
      intro k' e he
      simp only [List.map_append, List.mem_append, List.map_cons, List.map_nil,
        List.mem_singleton, not_or]
      exact ⟨hfr e (List.mem_cons_of_mem _ he), fun hep => hnd.1 ⟨e, he, hep⟩⟩
    cases htx : n.isText with
    | true =>
      obtain ⟨t, h1, h2⟩ := ih c next ks (fun e he => hfr e (List.mem_cons_of_mem _ he)) hnd.2
      rw [applyFold_text gen im value n p rest c next ks htx]
      exact ⟨t, h1, by simp [List.filter_cons, htx, h2]⟩
    | false =>
      obtain ⟨k', c', heq, _⟩ := applyFold_step gen im value n p rest c next ks htx
      rw [heq, mapSet_append hp]
      obtain ⟨t, h1, h2⟩ := ih c' (next ++ [(p, k')]) (setAdd ks k') (hfr2 k') hnd.2
      refine ⟨(p, k') :: t, ?_, ?_⟩
      · rw [h1]
        simp
      · simp [List.filter_cons, htx, h2]

theorem lookup_append_some {p : Nat} {xs : List (Nat × String)} {v : String}
    (ys : List (Nat × String)) (h : List.lookup p xs = some v) :
    List.lookup p (xs ++ ys) = some v := by
  induction xs with
  | nil => simp [List.lookup] at h
  | cons e xs ih =>
    obtain ⟨q, w⟩ := e
    by_cases hq : p = q
    · subst hq
      simp [List.lookup] at h ⊢
      exact h
    · have hk : (p == q) = false := beq_eq_false_iff_ne.mpr hq
      simp [List.lookup, hk] at h ⊢
      exact ih h

theorem applyFold_carry (gen : Nat → String) (im : Nat → Nat) (value : List (Nat × String))
    (n0 : Node) (p0 : Nat) (k0 : String) (hnt : n0.isText = false)
    (hl0 : List.lookup (im p0) value = some k0) (hgen : ∀ i, gen i ≠ k0) :
    ∀ (l : List (Node × Nat)) (c : Nat) (next : List (Nat × String)) (ks : List String),
    (∀ e ∈ l, e.2 ∉ next.map Prod.fst) → ((l.map (fun e => e.2)).Nodup) →
    (n0, p0) ∈ l → k0 ∉ ks →
    (∀ e ∈ l, e.1.isText = false → e.2 ≠ p0 →
      ∀ k, List.lookup (im e.2) value = some k → k ≠ k0) →
    List.lookup p0 (applyFold gen im value l c next ks).1 = some k0 := by
  intro l
  induction l with
  | nil => intro c next ks _ _ hp _ _; simp at hp
  | cons e rest ih =>
    intro c next ks hfr hnd hp hks hother
    obtain ⟨n, p⟩ := e
    have hpn : p ∉ next.map Prod.fst := hfr (n, p) (List.mem_cons_self _ _)
    simp only [List.map_cons, List.nodup_cons, List.mem_map] at hnd
    have hfr2 : ∀ (k' : String), ∀ e ∈ rest, e.2 ∉ (next ++ [(p, k')]).map Prod.fst := by
      intro k' e he
      simp only [List.map_append, List.mem_append, List.map_cons, List.map_nil,
        List.mem_singleton, not_or]
      exact ⟨hfr e (List.mem_cons_of_mem _ he), fun hep => hnd.1 ⟨e, he, hep⟩⟩
    by_cases hpp : p = p0
    · subst hpp
      have hn : n = n0 := by
        rcases List.mem_cons.mp hp with h | h
        · exact (Prod.mk.injEq _ _ _ _ ▸ h).1.symm
        · exact absurd ⟨(n0, p), h, rfl⟩ hnd.1
      have hnt2 : n.isText = false := by rw [hn]; exact hnt
      obtain ⟨k', c', heq, hbr⟩ := applyFold_step gen im value n p rest c next ks hnt2
      have hk' : k' = k0 ∧ c' = c := by
        rcases hbr with ⟨kp, hlk, hc⟩ | ⟨hlk, _⟩
        · rw [hl0] at hlk
          obtain rfl : kp = k0 := (Option.some.injEq _ _ ▸ hlk).symm
          rcases hc with ⟨_, rfl, rfl⟩ | ⟨hin, _, _⟩
          · exact ⟨rfl, rfl⟩
          · exact absurd hin hks
        · rw [hl0] at hlk
          exact absurd hlk (by simp)
      obtain ⟨hkk, hcc⟩ := hk'
      rw [heq, hkk, hcc, mapSet_append hpn]
      obtain ⟨t, h1, h2⟩ := applyFold_entries gen im value rest c (next ++ [(p, k0)])
        (setAdd ks k0) (hfr2 k0) hnd.2
      rw [h1]
      apply lookup_append_some
      rw [lookup_append_right p next [(p, k0)] hpn]
      simp [List.lookup]
    · have hp2 : (n0, p0) ∈ rest := by
        rcases List.mem_cons.mp hp with h | h
        · exact absurd (congrArg Prod.snd h).symm hpp
        · exact h
      have hother2 : ∀ e ∈ rest, e.1.isText = false → e.2 ≠ p0 →
          ∀ k, List.lookup (im e.2) value = some k → k ≠ k0 :=
        fun e he => hother e (List.mem_cons_of_mem _ he)
      cases htx : n.isText with
      | true =>
        rw [applyFold_text gen im value n p rest c next ks htx]
        exact ih c next ks (fun e he => hfr e (List.mem_cons_of_mem _ he)) hnd.2 hp2 hks hother2
      | false =>
        obtain ⟨k', c', heq, hbr⟩ := applyFold_step gen im value n p rest c next ks htx
        have hne : k' ≠ k0 := by
          rcases hbr with ⟨kp, hlk, hc⟩ | ⟨_, hc⟩
          · rcases hc with ⟨_, hk, _⟩ | ⟨_, hk, _⟩
            · rw [hk]
              exact hother (n, p) (List.mem_cons_self _ _) htx hpp kp hlk
            · rw [hk]
              exact hgen c
          · rcases hc with ⟨_, hk, _⟩ | ⟨_, hk, _⟩
            · rw [hk]
              exact hgen c
            · rw [hk]
              exact hgen (c + 1)
        have hks2 : k0 ∉ setAdd ks k' := by
          rw [setAdd_mem]
          rintro (h | h)
          · exact hks h
          · exact hne h.symm
        rw [heq, mapSet_append hpn]
        exact ih c' (next ++ [(p, k')]) (setAdd ks k') (hfr2 k') hnd.2 hp2 hks2 hother2

theorem applyFold_freshkey (gen : Nat → String) (im : Nat → Nat) (value : List (Nat × String))
    (n0 : Node) (p0 : Nat) (hnt : n0.isText = false)
    (hl0 : List.lookup (im p0) value = none) :
    ∀ (l : List (Node × Nat)) (c : Nat) (next : List (Nat × String)) (ks : List String),
    (∀ e ∈ l, e.2 ∉ next.map Prod.fst) → ((l.map (fun e => e.2)).Nodup) →
    (n0, p0) ∈ l →
    ∃ i, List.lookup p0 (applyFold gen im value l c next ks).1 = some (gen i) := by
  intro l
  induction l with
  | nil => intro c next ks _ _ hp; simp at hp
  | cons e rest ih =>
    intro c next ks hfr hnd hp
    obtain ⟨n, p⟩ := e
    have hpn : p ∉ next.map Prod.fst := hfr (n, p) (List.mem_cons_self _ _)
    simp only [List.map_cons, List.nodup_cons, List.mem_map] at hnd
    have hfr2 : ∀ (k' : String), ∀ e ∈ rest, e.2 ∉ (next ++ [(p, k')]).map Prod.fst := by
      intro k' e he
      simp only [List.map_append, List.mem_append, List.map_cons, List.map_nil,
        List.mem_singleton, not_or]
      exact ⟨hfr e (List.mem_cons_of_mem _ he), fun hep => hnd.1 ⟨e, he, hep⟩⟩
    by_cases hpp : p = p0
    · subst hpp
      have hn : n = n0 := by
        rcases List.mem_cons.mp hp with h | h
        · exact (Prod.mk.injEq _ _ _ _ ▸ h).1.symm
        · exact absurd ⟨(n0, p), h, rfl⟩ hnd.1
      have hnt2 : n.isText = false := by rw [hn]; exact hnt
      obtain ⟨k', c', heq, hbr⟩ := applyFold_step gen im value n p rest c next ks hnt2
      have hk' : ∃ i, k' = gen i := by
        rcases hbr with ⟨kp, hlk, _⟩ | ⟨_, hc⟩
        · rw [hl0] at hlk
          exact absurd hlk (by simp)
        · rcases hc with ⟨_, rfl, _⟩ | ⟨_, rfl, _⟩
          · exact ⟨c, rfl⟩
          · exact ⟨c + 1, rfl⟩
      obtain ⟨i, rfl⟩ := hk'
      rw [heq, mapSet_append hpn]
      obtain ⟨t, h1, h2⟩ := applyFold_entries gen im value rest c' (next ++ [(p, gen i)])
        (setAdd ks (gen i)) (hfr2 (gen i)) hnd.2
      refine ⟨i, ?_⟩
      rw [h1]
      apply lookup_append_some
      rw [lookup_append_right p next [(p, gen i)] hpn]
      simp [List.lookup]
    · have hp2 : (n0, p0) ∈ rest := by
        rcases List.mem_cons.mp hp with h | h
        · exact absurd (congrArg Prod.snd h).symm hpp
        · exact h
      cases htx : n.isText with
      | true =>
        rw [applyFold_text gen im value n p rest c next ks htx]
        exact ih c next ks (fun e he => hfr e (List.mem_cons_of_mem _ he)) hnd.2 hp2
      | false =>
        obtain ⟨k', c', heq, _⟩ := applyFold_step gen im value n p rest c next ks htx
        rw [heq, mapSet_append hpn]
        exact ih c' (next ++ [(p, k')]) (setAdd ks k') (hfr2 k') hnd.2 hp2

theorem applyFold_nodup (gen : Nat → String) (im : Nat → Nat) (value : List (Nat × String))
    (hinj : ∀ i j, gen i = gen j → i = j)
    (hfresh : ∀ i, gen i ∉ value.map Prod.snd) :
    ∀ (l : List (Node × Nat)) (c : Nat) (next : List (Nat × String)) (ks : List String),
    (∀ e ∈ l, e.2 ∉ next.map Prod.fst) → ((l.map (fun e => e.2)).Nodup) →
    (∀ k ∈ next.map Prod.snd, k ∈ ks) →
    (∀ k ∈ ks, k ∈ value.map Prod.snd ∨ ∃ i, i < c ∧ k = gen i) →
    ((next.map Prod.snd).Nodup) →
    ((applyFold gen im value l c next ks).1.map Prod.snd).Nodup := by
  intro l
  induction l with
  | nil => intro c next ks _ _ _ _ hvnd; simpa [applyFold] using hvnd
  | cons e rest ih =>
    intro c next ks hfr hnd hsub hksrc hvnd
    obtain ⟨n, p⟩ := e
    have hpn : p ∉ next.map Prod.fst := hfr (n, p) (List.mem_cons_self _ _)
    simp only [List.map_cons, List.nodup_cons, List.mem_map] at hnd
    have hfr2 : ∀ (k' : String), ∀ e ∈ rest, e.2 ∉ (next ++ [(p, k')]).map Prod.fst := by
      intro k' e he
      simp only [List.map_append, List.mem_append, List.map_cons, List.map_nil,
        List.mem_singleton, not_or]
      exact ⟨hfr e (List.mem_cons_of_mem _ he), fun hep => hnd.1 ⟨e, he, hep⟩⟩
    cases htx : n.isText with
    | true =>
      rw [applyFold_text gen im value n p rest c next ks htx]
      exact ih c next ks (fun e he => hfr e (List.mem_cons_of_mem _ he)) hnd.2 hsub hksrc hvnd
    | false =>
      obtain ⟨k', c', heq, hbr⟩ := applyFold_step gen im value n p rest c next ks htx
      have hknotks : k' ∉ ks := by
        rcases hbr with ⟨kp, hlk, ⟨hm, hk, _⟩ | ⟨hm, hk, _⟩⟩ | ⟨hlk, ⟨hm, hk, _⟩ | ⟨hm, hk, _⟩⟩
        · rw [hk]
          exact hm
        · rw [hk]
          intro hin
          rcases hksrc (gen c) hin with hv | ⟨i, hi, hgi⟩
          · exact hfresh c hv
          · exact absurd (hinj c i hgi) (by omega)
        · rw [hk]
          exact hm
        · rw [hk]
          intro hin
          rcases hksrc (gen (c + 1)) hin with hv | ⟨i, hi, hgi⟩
          · exact hfresh (c + 1) hv
          · exact absurd (hinj (c + 1) i hgi) (by omega)
      have hksrc2 : ∀ k ∈ setAdd ks k', k ∈ value.map Prod.snd ∨ ∃ i, i < c' ∧ k = gen i := by
        intro k hk
        have hcc : c ≤ c' := by
          rcases hbr with ⟨kp, _, ⟨_, _, hcx⟩ | ⟨_, _, hcx⟩⟩ | ⟨_, ⟨_, _, hcx⟩ | ⟨_, _, hcx⟩⟩ <;>
            omega
        rcases setAdd_mem.mp hk with hin | hkk
        · rcases hksrc k hin with hv | ⟨i, hi, hgi⟩
          · exact Or.inl hv
          · exact Or.inr ⟨i, by omega, hgi⟩
        · subst hkk
          rcases hbr with ⟨kp, hlk, ⟨_, hkx, hcx⟩ | ⟨_, hkx, hcx⟩⟩ | ⟨hlk, ⟨_, hkx, hcx⟩ | ⟨_, hkx, hcx⟩⟩
        
          · rw [hkx]
            exact Or.inl (lookup_some_val_mem hlk)
          · exact Or.inr ⟨c, by omega, hkx⟩
          · exact Or.inr ⟨c, by omega, hkx⟩
          · exact Or.inr ⟨c + 1, by omega, hkx⟩
      have hsub2 : ∀ k ∈ (next ++ [(p, k')]).map Prod.snd, k ∈ setAdd ks k' := by
        intro k hk
        simp only [List.map_append, List.mem_append, List.map_cons, List.map_nil,
          List.mem_singleton] at hk
        rcases hk with hk | hk
        · exact setAdd_mem.mpr (Or.inl (hsub k hk))
        · exact setAdd_mem.mpr (Or.inr hk)
      have hvnd2 : ((next ++ [(p, k')]).map Prod.snd).Nodup := by
        simp only [List.map_append, List.map_cons, List.map_nil]
        refine List.nodup_append.mpr ⟨hvnd, List.nodup_singleton _, ?_⟩
        intro a ha hb
        rw [List.mem_singleton] at hb
        exact hknotks (hb ▸ hsub a ha)
      rw [heq, mapSet_append hpn]
      exact ih c' (next ++ [(p, k')]) (setAdd ks k') (hfr2 k') hnd.2 hsub2 hksrc2 hvnd2

theorem applyFold_count (gen : Nat → String) (im : Nat → Nat) (value : List (Nat × String))
    (k0 : String) (hk0 : ∀ i, gen i ≠ k0) :
    ∀ (l : List (Node × Nat)) (c : Nat) (next : List (Nat × String)) (ks : List String),
    (∀ e ∈ l, e.2 ∉ next.map Prod.fst) → ((l.map (fun e => e.2)).Nodup) →
    (k0 ∈ next.map Prod.snd → k0 ∈ ks) →
    ((next.map Prod.snd).count k0 ≤ 1) →
    ((applyFold gen im value l c next ks).1.map Prod.snd).count k0 ≤ 1 := by
  intro l
  induction l with
  | nil => intro c next ks _ _ _ hcnt; simpa [applyFold] using hcnt
  | cons e rest ih =>
    intro c next ks hfr hnd hmem hcnt
    obtain ⟨n, p⟩ := e
    have hpn : p ∉ next.map Prod.fst := hfr (n, p) (List.mem_cons_self _ _)
    simp only [List.map_cons, List.nodup_cons, List.mem_map] at hnd
    have hfr2 : ∀ (k' : String), ∀ e ∈ rest, e.2 ∉ (next ++ [(p, k')]).map Prod.fst := by
      intro k' e he
      simp only [List.map_append, List.mem_append, List.map_cons, List.map_nil,
        List.mem_singleton, not_or]
      exact ⟨hfr e (List.mem_cons_of_mem _ he), fun hep => hnd.1 ⟨e, he, hep⟩⟩
    cases htx : n.isText with
    | true =>
      rw [applyFold_text gen im value n p rest c next ks htx]
      exact ih c next ks (fun e he => hfr e (List.mem_cons_of_mem _ he)) hnd.2 hmem hcnt
    | false =>
      obtain ⟨k', c', heq, hbr⟩ := applyFold_step gen im value n p rest c next ks htx
      rw [heq, mapSet_append hpn]
      by_cases hin : k0 ∈ ks
      · have hne : k' ≠ k0 := by
          rcases hbr with ⟨kp, hlk, ⟨hm, hk, _⟩ | ⟨_, hk, _⟩⟩ | ⟨_, ⟨_, hk, _⟩ | ⟨_, hk, _⟩⟩
          · rw [hk]
            intro hkp
            exact hm (hkp ▸ hin)
          · rw [hk]
            exact hk0 c
          · rw [hk]
            exact hk0 c
          · rw [hk]
            exact hk0 (c + 1)
        have hmem2 : k0 ∈ ((next ++ [(p, k')]).map Prod.snd) → k0 ∈ setAdd ks k' := by
          intro _
          exact setAdd_mem.mpr (Or.inl hin)
        have hcnt2 : (((next ++ [(p, k')]).map Prod.snd).count k0 ≤ 1) := by
          simp only [List.map_append, List.map_cons, List.map_nil, List.count_append]
          have : List.count k0 [k'] = 0 := by
            rw [List.count_eq_zero, List.mem_singleton]
            exact fun h => hne h.symm
          omega
        exact ih c' (next ++ [(p, k')]) (setAdd ks k') (hfr2 k') hnd.2 hmem2 hcnt2
      · have hnotv : k0 ∉ next.map Prod.snd := fun h => hin (hmem h)
        have hzero : (next.map Prod.snd).count k0 = 0 := List.count_eq_zero.mpr hnotv
        have hmem2 : k0 ∈ ((next ++ [(p, k')]).map Prod.snd) → k0 ∈ setAdd ks k' := by
          intro h
          simp only [List.map_append, List.mem_append, List.map_cons, List.map_nil,
            List.mem_singleton] at h
          rcases h with h | h
          · exact absurd h hnotv
          · exact setAdd_mem.mpr (Or.inr h)
        have hcnt2 : (((next ++ [(p, k')]).map Prod.snd).count k0 ≤ 1) := by
          simp only [List.map_append, List.map_cons, List.map_nil, List.count_append, hzero]
          have : List.count k0 [k'] ≤ 1 := by
            have hlen := List.count_le_length k0 [k']
            simpa using hlen
          omega
        exact ih c' (next ++ [(p, k')]) (setAdd ks k') (hfr2 k') hnd.2 hmem2 hcnt2

theorem applyFold_ext (gen : Nat → String) (im : Nat → Nat) (v1 v2 : List (Nat × String))
    (h : ∀ q, List.lookup q v1 = List.lookup q v2) :
    ∀ (l : List (Node × Nat)) (c : Nat) (next : List (Nat × String)) (ks : List String),
    applyFold gen im v1 l c next ks = applyFold gen im v2 l c next ks := by
  intro l
  induction l with
  | nil => intro c next ks; simp [applyFold]
  | cons e rest ih =>
    intro c next ks
    obtain ⟨n, p⟩ := e
    cases htx : n.isText with
    | true =>
      rw [applyFold_text gen im v1 n p rest c next ks htx,
        applyFold_text gen im v2 n p rest c next ks htx]
      exact ih c next ks
    | false =>
      have h1 : List.lookup (im p) v1 = List.lookup (im p) v2 := h (im p)
      cases hlk : List.lookup (im p) v2 with
      | some kp =>
        have hlk1 : List.lookup (im p) v1 = some kp := by rw [h1, hlk]
        by_cases hm : kp ∈ ks
        · simp only [applyFold, htx, hlk, hlk1, createRegistryKey, hm]
          simp only [Bool.false_eq_true, if_false, if_pos hm]
          exact ih _ _ _
        · simp only [applyFold, htx, hlk, hlk1, createRegistryKey]
          simp only [Bool.false_eq_true, if_false, if_neg hm]
          exact ih _ _ _
      | none =>
        have hlk1 : List.lookup (im p) v1 = none := by rw [h1, hlk]
        by_cases hm : gen c ∈ ks
        · simp only [applyFold, htx, hlk, hlk1, createRegistryKey]
          simp only [Bool.false_eq_true, if_false, if_pos hm]
          exact ih _ _ _
        · simp only [applyFold, htx, hlk, hlk1, createRegistryKey]
          simp only [Bool.false_eq_true, if_false, if_neg hm]
          exact ih _ _ _

theorem walkAncestors_skip (m : List (Nat × String)) (tagged : String → Bool) :
    ∀ (pre rest : List (String × Nat)),
    (∀ e ∈ pre, tagged e.1 = true → List.lookup e.2 m = none ∨ List.lookup e.2 m = some "") →
    walkAncestors m tagged (pre ++ rest) = walkAncestors m tagged rest := by
  intro pre
  induction pre with
  | nil => intro rest _; rfl
  | cons e pre ih =>
    intro rest hpre
    obtain ⟨name, b⟩ := e
    have htail : ∀ e ∈ pre, tagged e.1 = true →
        List.lookup e.2 m = none ∨ List.lookup e.2 m = some "" :=
      fun e he => hpre e (List.mem_cons_of_mem _ he)
    cases htag : tagged name with
    | false =>
      simp only [List.cons_append, walkAncestors, htag, Bool.false_eq_true, if_false]
      exact ih rest htail
    | true =>
      rcases hpre (name, b) (List.mem_cons_self _ _) htag with hl | hl
      · simp only [List.cons_append, walkAncestors, htag, if_true, hl]
        exact ih rest htail
      · simp only [List.cons_append, walkAncestors, htag, if_true, hl]
        exact ih rest htail

theorem walkAncestors_hit (m : List (Nat × String)) (tagged : String → Bool)
    (name : String) (b : Nat) (k : String) (rest : List (String × Nat))
    (htag : tagged name = true) (hlk : List.lookup b m = some k) (hne : k ≠ "") :
    walkAncestors m tagged ((name, b) :: rest) = k := by
  simp only [walkAncestors, htag, if_true, hlk]
  exact if_neg hne

theorem walkAncestors_root_iff (m : List (Nat × String)) (tagged : String → Bool)
    (hclean : ∀ e ∈ m, e.2 ≠ "" ∧ e.2 ≠ PORTAL_REGISTRY_ROOT_KEY) :
    ∀ (l : List (String × Nat)),
    (walkAncestors m tagged l = PORTAL_REGISTRY_ROOT_KEY ↔
      ∀ e ∈ l, tagged e.1 = true → List.lookup e.2 m = none) := by
  intro l
  induction l with
  | nil => simp [walkAncestors]
  | cons e l ih =>
    obtain ⟨name, b⟩ := e
    cases htag : tagged name with
    | false =>
      simp only [walkAncestors, htag, Bool.false_eq_true, if_false]
      rw [ih]
      constructor
      · intro h e he ht
        rcases List.mem_cons.mp he with rfl | he
        · exact absurd ht (by simp [htag])
        · exact h e he ht
      · intro h e he ht
        exact h e (List.mem_cons_of_mem _ he) ht
    | true =>
      cases hlk : List.lookup b m with
      | some k =>
        have hkc := hclean (b, k) (lookup_some_mem hlk)
        simp only [walkAncestors, htag, if_true, hlk]
        rw [if_neg hkc.1]
        constructor
        · intro h
          exact absurd h hkc.2
        · intro h
          have hb := h (name, b) (List.mem_cons_self _ _) htag
          rw [hlk] at hb
          cases hb
      | none =>
        simp only [walkAncestors, htag, if_true, hlk]
        rw [ih]
        constructor
        · intro h e he ht
          rcases List.mem_cons.mp he with rfl | he
          · exact hlk
          · exact h e he ht
        · intro h e he ht
          exact h e (List.mem_cons_of_mem _ he) ht

theorem walkAncestors_ext (m1 m2 : List (Nat × String)) (tagged : String → Bool)
    (h : ∀ q, List.lookup q m1 = List.lookup q m2) :
    ∀ l, walkAncestors m1 tagged l = walkAncestors m2 tagged l := by
  intro l
  induction l with
  | nil => rfl
  | cons e l ih =>
    obtain ⟨name, b⟩ := e
    cases htag : tagged name with
    | false => simp only [walkAncestors, htag, Bool.false_eq_true, if_false, ih]
    | true =>
      simp only [walkAncestors, htag, if_true, h b]
      cases List.lookup b m2 with
      | none => exact ih
      | some k =>
        by_cases hk : k = ""
        · simp only [if_pos hk, ih]
        · simp only [if_neg hk]

theorem genA_ne_empty (i : Nat) : genA i ≠ "" := by
  intro h
  have hlen := congrArg (fun s => s.data.length) h
  simp [genA] at hlen

theorem genA_inj : ∀ i j : Nat, genA i = genA j → i = j := by
  intro i j h
  have hlen := congrArg (fun s => s.data.length) h
  simpa [genA] using hlen

theorem initPlugin_spec (gen : Nat → String) (c : Nat) (doc : Node) :
    (initPlugin gen c doc).1.map Prod.fst = (descendantsList doc).map (fun e => e.2) ∧
    (initPlugin gen c doc).1.map Prod.snd =
      (List.range (descendantsList doc).length).map (fun i => gen (c + i)) := by
  have h := initFold_spec gen (descendantsList doc) c [] (by simp) (descendants_pos_nodup doc)
  exact ⟨by simpa [initPlugin] using h.1, by simpa [initPlugin] using h.2.1⟩

theorem initPlugin_values_nodup (gen : Nat → String) (c : Nat) (doc : Node)
    (hinj : ∀ i j, gen i = gen j → i = j) :
    ((initPlugin gen c doc).1.map Prod.snd).Nodup := by
  rw [(initPlugin_spec gen c doc).2]
  refine List.Nodup.map ?_ (List.nodup_range _)
  intro i j hij
  have := hinj (c + i) (c + j) hij
  omega

/-- C1 counterexample: the plugin init assigns a key to a text leaf. In
the document doc[p[text]], the text leaf is reported by the descendants
traversal at position 1 and init stores a key for it (the init callback
has no text filter, unlike apply), refuting the claim that initialize
assigns no key to text leaves. -/
theorem c1_counterexample :
    (Node.text 0, 1) ∈ descendantsList (Node.node "doc" [Node.node "p" [Node.text 0]]) ∧
    (Node.text 0).isText = true ∧
    List.lookup 1 (initPlugin genA 0 (Node.node "doc" [Node.node "p" [Node.text 0]])).1 =
      some (genA 1) := by
  refine ⟨?_, rfl, ?_⟩
  · simp [descendantsList, descNode, descList]
  · rfl

/-- C1 (amended): initialize yields exactly one map entry per node
visited by the descendants traversal of the document, text leaves
included and the root excluded, keyed by the node position in traversal
order, with pairwise distinct positions; and when the key generator
never repeats a value, all keys in the resulting map are pairwise
distinct. -/
theorem c1_init_one_key_per_descendant (gen : Nat → String) (c : Nat) (doc : Node)
    (hinj : ∀ i j, gen i = gen j → i = j) :
    (initPlugin gen c doc).1.map Prod.fst = (descendantsList doc).map (fun e => e.2) ∧
    ((initPlugin gen c doc).1.map Prod.fst).Nodup ∧
    ((initPlugin gen c doc).1.map Prod.snd).Nodup := by
  refine ⟨(initPlugin_spec gen c doc).1, ?_, initPlugin_values_nodup gen c doc hinj⟩
  rw [(initPlugin_spec gen c doc).1]
  exact descendants_pos_nodup doc

/-- C1 witness: the amended statement instantiated on a concrete
document and the concrete injective key oracle. -/
theorem c1_init_one_key_per_descendant_witness :
    (∀ i j : Nat, genA i = genA j → i = j) ∧
    ((initPlugin genA 0 (Node.node "doc" [Node.node "p" [Node.text 0]])).1.map Prod.fst =
      (descendantsList (Node.node "doc" [Node.node "p" [Node.text 0]])).map (fun e => e.2) ∧
     ((initPlugin genA 0 (Node.node "doc" [Node.node "p" [Node.text 0]])).1.map Prod.fst).Nodup ∧
     ((initPlugin genA 0 (Node.node "doc" [Node.node "p" [Node.text 0]])).1.map Prod.snd).Nodup) :=
  ⟨genA_inj, c1_init_one_key_per_descendant genA 0 (Node.node "doc" [Node.node "p" [Node.text 0]])
    genA_inj⟩

/-- C2: when a transaction reports no document change, the plugin apply
returns the previous map (and consumes no keys), an identity short
circuit with no reconciliation. -/
theorem c2_noop_identity (gen : Nat → String) (c : Nat) (tr : Tr)
    (value : List (Nat × String)) (newDoc : Node) (h : tr.docChanged = false) :
    applyPlugin gen c tr value newDoc = (value, c) := by
  simp [applyPlugin, h]

/-- C2 witness: the no change fast path on a concrete transaction, map
and document. -/
theorem c2_noop_identity_witness :
    (Tr.mk false id).docChanged = false ∧
    applyPlugin genA 0 (Tr.mk false id) [(0, "k")] (Node.node "doc" [Node.node "p" [Node.text 0]])
      = ([(0, "k")], 0) :=
  ⟨rfl, c2_noop_identity genA 0 (Tr.mk false id) [(0, "k")]
    (Node.node "doc" [Node.node "p" [Node.text 0]]) rfl⟩

/-- C5: a structural node of the new document whose invert mapped old
position is absent from the previous map receives a generator produced
key; when the generator avoids every value of the previous map (the
freshness assumption the spec makes on random keys), the key assigned to
such a newly inserted node is not in the value set of the previous
map. -/
theorem c5_fresh_insert (gen : Nat → String) (c : Nat) (tr : Tr)
    (value : List (Nat × String)) (newDoc : Node) (n0 : Node) (p0 : Nat)
    (htr : tr.docChanged = true)
    (hp : (n0, p0) ∈ descendantsList newDoc)
    (hnt : n0.isText = false)
    (hl0 : List.lookup (tr.invMap p0) value = none)
    (hfresh : ∀ i, gen i ∉ value.map Prod.snd) :
    ∃ k, List.lookup p0 (applyPlugin gen c tr value newDoc).1 = some k ∧
      k ∉ value.map Prod.snd := by
  simp only [applyPlugin, htr, if_true]
  obtain ⟨i, hi⟩ := applyFold_freshkey gen tr.invMap value n0 p0 hnt hl0
    (descendantsList newDoc) c [] [] (by simp) (descendants_pos_nodup newDoc) hp
  exact ⟨gen i, hi, hfresh i⟩

/-- C5 witness: inserting the paragraph node at position 0 whose old
position is absent from the previous map yields a key outside the
previous value set. -/
theorem c5_fresh_insert_witness :
    (Tr.mk true id).docChanged = true ∧
    (Node.node "p" [Node.text 0], 0) ∈
      descendantsList (Node.node "doc" [Node.node "p" [Node.text 0]]) ∧
    (Node.node "p" [Node.text 0]).isText = false ∧
    List.lookup ((Tr.mk true id).invMap 0) [(9, "")] = none ∧
    (∃ k, List.lookup 0 (applyPlugin genA 0 (Tr.mk true id) [(9, "")]
        (Node.node "doc" [Node.node "p" [Node.text 0]])).1 = some k ∧
      k ∉ ([((9 : Nat), "")] : List (Nat × String)).map Prod.snd) := by
  refine ⟨rfl, ?_, rfl, rfl, ?_⟩
  · simp [descendantsList, descNode, descList]
  · exact c5_fresh_insert genA 0 (Tr.mk true id) [(9, "")]
      (Node.node "doc" [Node.node "p" [Node.text 0]]) (Node.node "p" [Node.text 0]) 0 rfl
      (by simp [descendantsList, descNode, descList]) rfl rfl
      (fun i hi => by
        simp only [List.map_cons, List.map_nil, List.mem_singleton] at hi
        exact genA_ne_empty i hi)

/-- C8: on a document changing transaction, apply builds the new map
from the empty map by the reconciliation fold, and reads the previous
map only through lookups: any previous map with the same lookup
behaviour yields the same result, so the previous map itself is never
written. -/
theorem c8_rebuild_wholesale (gen : Nat → String) (c : Nat) (tr : Tr)
    (value : List (Nat × String)) (newDoc : Node) (htr : tr.docChanged = true) :
    applyPlugin gen c tr value newDoc =
      applyFold gen tr.invMap value (descendantsList newDoc) c [] [] ∧
    ∀ v2, (∀ q, List.lookup q value = List.lookup q v2) →
      applyPlugin gen c tr value newDoc = applyPlugin gen c tr v2 newDoc := by
  refine ⟨by simp [applyPlugin, htr], ?_⟩
  intro v2 h
  simp only [applyPlugin, htr, if_true]
  exact applyFold_ext gen tr.invMap value v2 h (descendantsList newDoc) c [] []

/-- C8 witness: the rebuild equation and read only dependence on the
previous map, instantiated on a concrete edit. -/
theorem c8_rebuild_wholesale_witness :
    (Tr.mk true id).docChanged = true ∧
    (applyPlugin genA 0 (Tr.mk true id) [(0, "k")]
        (Node.node "doc" [Node.node "p" [Node.text 0]]) =
      applyFold genA id [(0, "k")]
        (descendantsList (Node.node "doc" [Node.node "p" [Node.text 0]])) 0 [] [] ∧
     ∀ v2, (∀ q, List.lookup q [((0 : Nat), "k")] = List.lookup q v2) →
       applyPlugin genA 0 (Tr.mk true id) [(0, "k")]
           (Node.node "doc" [Node.node "p" [Node.text 0]]) =
         applyPlugin genA 0 (Tr.mk true id) v2
           (Node.node "doc" [Node.node "p" [Node.text 0]])) :=
  ⟨rfl, c8_rebuild_wholesale genA 0 (Tr.mk true id) [(0, "k")]
    (Node.node "doc" [Node.node "p" [Node.text 0]]) rfl⟩

/-- C3: a structural node at position p0 of the new document whose
invert mapped old position holds key k0 in the previous map keeps k0
after reconciliation, provided the edit leaves it untouched in the sense
that no other structural node of the new document resolves to k0
through the previous map (no duplication onto it and no duplicate k0
value in the previous map) and the key generator never emits k0. -/
theorem c3_stability (gen : Nat → String) (c : Nat) (tr : Tr)
    (value : List (Nat × String)) (newDoc : Node) (n0 : Node) (p0 : Nat) (k0 : String)
    (htr : tr.docChanged = true)
    (hp : (n0, p0) ∈ descendantsList newDoc)
    (hnt : n0.isText = false)
    (hl0 : List.lookup (tr.invMap p0) value = some k0)
    (hgen : ∀ i, gen i ≠ k0)
    (hother : ∀ e ∈ descendantsList newDoc, e.1.isText = false → e.2 ≠ p0 →
      ∀ k, List.lookup (tr.invMap e.2) value = some k → k ≠ k0) :
    List.lookup p0 (applyPlugin gen c tr value newDoc).1 = some k0 := by
  simp only [applyPlugin, htr, if_true]
  exact applyFold_carry gen tr.invMap value n0 p0 k0 hnt hl0 hgen
    (descendantsList newDoc) c [] [] (by simp) (descendants_pos_nodup newDoc) hp
    (by simp) hother

/-- C3 witness: an identity mapped edit preserves the key of the
untouched paragraph node at position 0. -/
theorem c3_stability_witness :
    (Tr.mk true id).docChanged = true ∧
    (Node.node "p" [Node.text 0], 0) ∈
      descendantsList (Node.node "doc" [Node.node "p" [Node.text 0]]) ∧
    List.lookup ((Tr.mk true id).invMap 0) [(0, "")] = some "" ∧
    (∀ i, genA i ≠ "") ∧
    List.lookup 0 (applyPlugin genA 0 (Tr.mk true id) [(0, "")]
      (Node.node "doc" [Node.node "p" [Node.text 0]])).1 = some "" := by
  refine ⟨rfl, by simp [descendantsList, descNode, descList], rfl, genA_ne_empty, ?_⟩
  refine c3_stability genA 0 (Tr.mk true id) [(0, "")]
    (Node.node "doc" [Node.node "p" [Node.text 0]]) (Node.node "p" [Node.text 0]) 0 ""
    rfl (by simp [descendantsList, descNode, descList]) rfl rfl genA_ne_empty ?_
  intro e he hnt2 hne k hk
  simp only [descendantsList, descNode, descList, List.mem_cons, List.mem_append,
    List.not_mem_nil, or_false, List.append_nil] at he
  rcases he with rfl | rfl
  · exact absurd rfl hne
  · simp [Node.isText] at hnt2

/-- C4: when two distinct structural positions of the new document
invert map to the same old position holding key kA, the two nodes
receive distinct keys after reconciliation (in particular not both equal
to kA), assuming the generator is injective and avoids the previous
value set; duplicates never share identity. -/
theorem c4_duplicates (gen : Nat → String) (c : Nat) (tr : Tr)
    (value : List (Nat × String)) (newDoc : Node)
    (n1 : Node) (p1 : Nat) (n2 : Node) (p2 : Nat) (kA : String)
    (htr : tr.docChanged = true)
    (hinj : ∀ i j, gen i = gen j → i = j)
    (hfresh : ∀ i, gen i ∉ value.map Prod.snd)
    (hp1 : (n1, p1) ∈ descendantsList newDoc) (ht1 : n1.isText = false)
    (hp2 : (n2, p2) ∈ descendantsList newDoc) (ht2 : n2.isText = false)
    (hne : p1 ≠ p2)
    (_hdup : tr.invMap p1 = tr.invMap p2)
    (_hA : List.lookup (tr.invMap p1) value = some kA) :
    ∃ k1 k2, List.lookup p1 (applyPlugin gen c tr value newDoc).1 = some k1 ∧
      List.lookup p2 (applyPlugin gen c tr value newDoc).1 = some k2 ∧
      k1 ≠ k2 ∧ ¬(k1 = kA ∧ k2 = kA) := by
  simp only [applyPlugin, htr, if_true]
  obtain ⟨t, h1, h2⟩ := applyFold_entries gen tr.invMap value (descendantsList newDoc) c [] []
    (by simp) (descendants_pos_nodup newDoc)
  have hnodup := applyFold_nodup gen tr.invMap value hinj hfresh (descendantsList newDoc)
    c [] [] (by simp) (descendants_pos_nodup newDoc) (by simp) (by simp) (by simp)
  have hd1 : p1 ∈ (applyFold gen tr.invMap value (descendantsList newDoc) c [] []).1.map
      Prod.fst := by
    rw [h1, List.nil_append, h2]
    exact List.mem_map.mpr ⟨(n1, p1), List.mem_filter.mpr ⟨hp1, by simp [ht1]⟩, rfl⟩
  have hd2 : p2 ∈ (applyFold gen tr.invMap value (descendantsList newDoc) c [] []).1.map
      Prod.fst := by
    rw [h1, List.nil_append, h2]
    exact List.mem_map.mpr ⟨(n2, p2), List.mem_filter.mpr ⟨hp2, by simp [ht2]⟩, rfl⟩
  obtain ⟨k1, hk1⟩ := mem_fst_lookup hd1
  obtain ⟨k2, hk2⟩ := mem_fst_lookup hd2
  have hdist : k1 ≠ k2 := by
    intro hkk
    have hmem1 := lookup_some_mem hk1
    have hmem2 := lookup_some_mem hk2
    rw [← hkk] at hmem2
    exact hne (nodup_values_eq hnodup hmem1 hmem2)
  exact ⟨k1, k2, hk1, hk2, hdist, fun h => hdist (h.1.trans h.2.symm)⟩

/-- C4 witness: a mapping sending both paragraph positions 0 and 3 back
to old position 0 produces two distinct keys for the two copies. -/
theorem c4_duplicates_witness :
    (Tr.mk true (fun _ => 0)).docChanged = true ∧
    (Node.node "p" [Node.text 0], 0) ∈
      descendantsList (Node.node "doc" [Node.node "p" [Node.text 0],
        Node.node "p" [Node.text 0]]) ∧
    (Node.node "p" [Node.text 0], 3) ∈
      descendantsList (Node.node "doc" [Node.node "p" [Node.text 0],
        Node.node "p" [Node.text 0]]) ∧
    (Tr.mk true (fun _ => 0)).invMap 0 = (Tr.mk true (fun _ => 0)).invMap 3 ∧
    List.lookup ((Tr.mk true (fun _ => 0)).invMap 0) [(0, "")] = some "" ∧
    (∃ k1 k2,
      List.lookup 0 (applyPlugin genA 0 (Tr.mk true (fun _ => 0)) [(0, "")]
        (Node.node "doc" [Node.node "p" [Node.text 0], Node.node "p" [Node.text 0]])).1 =
          some k1 ∧
      List.lookup 3 (applyPlugin genA 0 (Tr.mk true (fun _ => 0)) [(0, "")]
        (Node.node "doc" [Node.node "p" [Node.text 0], Node.node "p" [Node.text 0]])).1 =
          some k2 ∧
      k1 ≠ k2 ∧ ¬(k1 = "" ∧ k2 = "")) := by
  refine ⟨rfl, by simp [descendantsList, descNode, descList, Node.size, sizeList],
    by simp [descendantsList, descNode, descList, Node.size, sizeList], rfl, rfl, ?_⟩
  exact c4_duplicates genA 0 (Tr.mk true (fun _ => 0)) [(0, "")]
    (Node.node "doc" [Node.node "p" [Node.text 0], Node.node "p" [Node.text 0]])
    (Node.node "p" [Node.text 0]) 0 (Node.node "p" [Node.text 0]) 3 ""
    rfl genA_inj
    (fun i hi => by
      simp only [List.map_cons, List.map_nil, List.mem_singleton] at hi
      exact genA_ne_empty i hi)
    (by simp [descendantsList, descNode, descList, Node.size, sizeList]) rfl
    (by simp [descendantsList, descNode, descList, Node.size, sizeList]) rfl
    (by omega) rfl rfl

/-- C6: the resolver returns the key of the nearest (deepest) tagged
ancestor that has a truthy entry in the current map: writing the deepest
first ancestor walk as pre ++ hit :: post, if every tagged ancestor in
pre (the deeper ones) has no entry or an empty entry, and the hit
ancestor is tagged with a nonempty entry k, the resolver returns k,
skipping stale tagged ancestors instead of failing. -/
theorem c6_nearest_tagged (m : List (Nat × String)) (tagged : String → Bool) (doc : Node)
    (p : Nat) (pre post : List (String × Nat)) (name : String) (b : Nat) (k : String)
    (hpath : (docAncestors doc p).reverse = pre ++ (name, b) :: post)
    (htag : tagged name = true)
    (hlk : List.lookup b m = some k) (hne : k ≠ "")
    (hpre : ∀ e ∈ pre, tagged e.1 = true →
      List.lookup e.2 m = none ∨ List.lookup e.2 m = some "") :
    findNearestRegistryKey (some m) tagged doc p = k := by
  show walkAncestors m tagged (docAncestors doc p).reverse = k
  rw [hpath, walkAncestors_skip m tagged pre ((name, b) :: post) hpre,
    walkAncestors_hit m tagged name b k post htag hlk hne]

/-- C6 witness: with tagged ancestors note (depth 1), item (depth 3) and
sub (depth 4), where sub has no map entry, the resolver at position 4
returns the key of item, the nearest tagged ancestor with an entry, not
the key of note. -/
theorem c6_nearest_tagged_witness :
    (docAncestors (Node.node "doc" [Node.node "note" [Node.node "para" [Node.node "item"
        [Node.node "sub" [Node.text 0]]]]]) 4).reverse =
      [("sub", 3)] ++ ("item", 2) :: [("para", 1), ("note", 0)] ∧
    (fun s => s == "note" || s == "item" || s == "sub") "item" = true ∧
    List.lookup 2 [(0, "aaa"), (2, "bbb")] = some "bbb" ∧
    ("bbb" : String) ≠ "" ∧
    findNearestRegistryKey (some [(0, "aaa"), (2, "bbb")])
      (fun s => s == "note" || s == "item" || s == "sub")
      (Node.node "doc" [Node.node "note" [Node.node "para" [Node.node "item"
        [Node.node "sub" [Node.text 0]]]]]) 4 = "bbb" := by
  refine ⟨rfl, rfl, rfl, by decide, ?_⟩
  refine c6_nearest_tagged [(0, "aaa"), (2, "bbb")]
    (fun s => s == "note" || s == "item" || s == "sub")
    (Node.node "doc" [Node.node "note" [Node.node "para" [Node.node "item"
      [Node.node "sub" [Node.text 0]]]]]) 4
    [("sub", 3)] [("para", 1), ("note", 0)] "item" 2 "bbb"
    rfl rfl rfl (by decide) ?_
  intro e he ht
  simp only [List.mem_singleton] at he
  subst he
  exact Or.inl rfl

/-- C7: the resolver returns the root sentinel exactly when the plugin
state is absent or every tagged ancestor of the position lacks a map
entry (given that map values are nonempty and distinct from the
sentinel, as generated keys are); moreover position 0 has no ancestors
at all, so the root itself is never matched by the walk. -/
theorem c7_root_fallback (st : Option (List (Nat × String))) (tagged : String → Bool)
    (doc : Node) (p : Nat)
    (hclean : ∀ m, st = some m → ∀ e ∈ m, e.2 ≠ "" ∧ e.2 ≠ PORTAL_REGISTRY_ROOT_KEY) :
    (findNearestRegistryKey st tagged doc p = PORTAL_REGISTRY_ROOT_KEY ↔
      (st = none ∨ ∃ m, st = some m ∧
        ∀ e ∈ docAncestors doc p, tagged e.1 = true → List.lookup e.2 m = none)) ∧
    docAncestors doc 0 = [] := by
  constructor
  · cases st with
    | none => simp [findNearestRegistryKey]
    | some m =>
      have hcl := hclean m rfl
      show walkAncestors m tagged (docAncestors doc p).reverse = _ ↔ _
      rw [walkAncestors_root_iff m tagged hcl ((docAncestors doc p).reverse)]
      constructor
      · intro h
        exact Or.inr ⟨m, rfl, fun e he ht => h e (List.mem_reverse.mpr he) ht⟩
      · rintro (h | ⟨m2, hm2, h⟩)
        · exact Option.noConfusion h
        · have hm := Option.some.inj hm2
          subst hm
          exact fun e he ht => h e (List.mem_reverse.mp he) ht
  · cases doc with
    | text len => rfl
    | node nm cs =>
      cases cs with
      | nil => rfl
      | cons c rest => rfl

/-- C7 witness: with no tagged ancestor the resolver falls through to
the sentinel, and the iff characterizes it; also the pre initialization
case and the empty ancestor path of position 0. -/
theorem c7_root_fallback_witness :
    (∀ m, (some [((0 : Nat), "aaa")] : Option (List (Nat × String))) = some m →
      ∀ e ∈ m, e.2 ≠ "" ∧ e.2 ≠ PORTAL_REGISTRY_ROOT_KEY) ∧
    ((findNearestRegistryKey (some [(0, "aaa")]) (fun _ => false)
        (Node.node "doc" [Node.node "p" [Node.text 0]]) 2 = PORTAL_REGISTRY_ROOT_KEY ↔
      ((some [((0 : Nat), "aaa")] : Option (List (Nat × String))) = none ∨
        ∃ m, (some [((0 : Nat), "aaa")] : Option (List (Nat × String))) = some m ∧
          ∀ e ∈ docAncestors (Node.node "doc" [Node.node "p" [Node.text 0]]) 2,
            (fun _ => false) e.1 = true → List.lookup e.2 m = none)) ∧
     docAncestors (Node.node "doc" [Node.node "p" [Node.text 0]]) 0 = []) ∧
    findNearestRegistryKey (none : Option (List (Nat × String))) (fun _ => false)
      (Node.node "doc" [Node.node "p" [Node.text 0]]) 2 = PORTAL_REGISTRY_ROOT_KEY := by
  have hclean : ∀ m, (some [((0 : Nat), "aaa")] : Option (List (Nat × String))) = some m →
      ∀ e ∈ m, e.2 ≠ "" ∧ e.2 ≠ PORTAL_REGISTRY_ROOT_KEY := by
    intro m hm
    have := Option.some.inj hm
    subst this
    intro e he
    simp only [List.mem_singleton] at he
    subst he
    exact ⟨by decide, by decide⟩
  exact ⟨hclean, c7_root_fallback (some [(0, "aaa")]) (fun _ => false)
    (Node.node "doc" [Node.node "p" [Node.text 0]]) 2 hclean, rfl⟩

/-- C9: the resolver is a pure read, deterministic in the observable
state: two runs over maps with identical lookup behaviour at every
position return the same key, with the same document, position and
tagging; the embedding itself is a total function, so neither run
mutates the map. -/
theorem c9_resolver_deterministic (m1 m2 : List (Nat × String)) (tagged : String → Bool)
    (doc : Node) (p : Nat) (h : ∀ q, List.lookup q m1 = List.lookup q m2) :
    findNearestRegistryKey (some m1) tagged doc p =
      findNearestRegistryKey (some m2) tagged doc p := by
  show walkAncestors m1 tagged (docAncestors doc p).reverse =
    walkAncestors m2 tagged (docAncestors doc p).reverse
  exact walkAncestors_ext m1 m2 tagged h ((docAncestors doc p).reverse)

/-- C9 witness: two maps with the same lookup behaviour but different
entry order resolve identically. -/
theorem c9_resolver_deterministic_witness :
    (∀ q, List.lookup q [((0 : Nat), "x"), (2, "y")] = List.lookup q [(2, "y"), (0, "x")]) ∧
    findNearestRegistryKey (some [(0, "x"), (2, "y")]) (fun s => s == "note")
        (Node.node "doc" [Node.node "note" [Node.node "para" [Node.node "item"
          [Node.node "sub" [Node.text 0]]]]]) 4 =
      findNearestRegistryKey (some [(2, "y"), (0, "x")]) (fun s => s == "note")
        (Node.node "doc" [Node.node "note" [Node.node "para" [Node.node "item"
          [Node.node "sub" [Node.text 0]]]]]) 4 := by
  have h : ∀ q, List.lookup q [((0 : Nat), "x"), (2, "y")] =
      List.lookup q [(2, "y"), (0, "x")] := by
    intro q
    rcases q with _ | _ | _ | q <;> rfl
  exact ⟨h, c9_resolver_deterministic [(0, "x"), (2, "y")] [(2, "y"), (0, "x")]
    (fun s => s == "note")
    (Node.node "doc" [Node.node "note" [Node.node "para" [Node.node "item"
      [Node.node "sub" [Node.text 0]]]]]) 4 h⟩

/-- C10: within one reconciliation pass a key that the generator never
emits, in particular any key carried over from a previous map under a
non repeating generator, is assigned to at most one position; and when
the generator is injective and avoids the previous value set, the maps
produced by apply on a document changing transaction and by init have
pairwise distinct values. -/
theorem c10_key_uniqueness (gen : Nat → String) (c : Nat) (tr : Tr)
    (value : List (Nat × String)) (newDoc : Node) (k0 : String)
    (htr : tr.docChanged = true)
    (hinj : ∀ i j, gen i = gen j → i = j)
    (hfresh : ∀ i, gen i ∉ value.map Prod.snd)
    (hk0 : k0 ∈ value.map Prod.snd) :
    (((applyPlugin gen c tr value newDoc).1.map Prod.snd).count k0 ≤ 1) ∧
    ((applyPlugin gen c tr value newDoc).1.map Prod.snd).Nodup ∧
    ((initPlugin gen c newDoc).1.map Prod.snd).Nodup := by
  have hgen0 : ∀ i, gen i ≠ k0 := fun i hi => hfresh i (hi ▸ hk0)
  refine ⟨?_, ?_, initPlugin_values_nodup gen c newDoc hinj⟩
  · simp only [applyPlugin, htr, if_true]
    exact applyFold_count gen tr.invMap value k0 hgen0 (descendantsList newDoc) c [] []
      (by simp) (descendants_pos_nodup newDoc) (by simp) (by simp)
  · simp only [applyPlugin, htr, if_true]
    exact applyFold_nodup gen tr.invMap value hinj hfresh (descendantsList newDoc) c [] []
      (by simp) (descendants_pos_nodup newDoc) (by simp) (by simp) (by simp)

/-- C10 witness: key uniqueness instantiated on a concrete edit with a
carried over key and the injective fresh oracle. -/
theorem c10_key_uniqueness_witness :
    (Tr.mk true id).docChanged = true ∧
    (∀ i j : Nat, genA i = genA j → i = j) ∧
    (∀ i, genA i ∉ ([((5 : Nat), "")] : List (Nat × String)).map Prod.snd) ∧
    ("" : String) ∈ ([((5 : Nat), "")] : List (Nat × String)).map Prod.snd ∧
    ((((applyPlugin genA 0 (Tr.mk true id) [(5, "")]
        (Node.node "doc" [Node.node "p" [Node.text 0]])).1.map Prod.snd).count "" ≤ 1) ∧
     ((applyPlugin genA 0 (Tr.mk true id) [(5, "")]
        (Node.node "doc" [Node.node "p" [Node.text 0]])).1.map Prod.snd).Nodup ∧
     ((initPlugin genA 0 (Node.node "doc" [Node.node "p" [Node.text 0]])).1.map
        Prod.snd).Nodup) := by
  have hfresh : ∀ i, genA i ∉ ([((5 : Nat), "")] : List (Nat × String)).map Prod.snd := by
    intro i hi
    simp only [List.map_cons, List.map_nil, List.mem_singleton] at hi
    exact genA_ne_empty i hi
  exact ⟨rfl, genA_inj, hfresh, by simp,
    c10_key_uniqueness genA 0 (Tr.mk true id) [(5, "")]
      (Node.node "doc" [Node.node "p" [Node.text 0]]) "" rfl genA_inj hfresh (by simp)⟩
